import Mathlib

/-!
Verification of the FIFO page-replacement simulation engine
(`FIFOAlgorithm`) and its animation scheduler (`AnimationEngine`).

The engine is embedded shallowly: the mutable JavaScript object becomes a
Lean structure, and each method becomes a function from the old state to
the new state (together with its return value).  Page numbers are
integers (the constructor guarantees they are non-negative); the
JavaScript `null` marking an empty frame becomes `Option.none`; methods
that `throw` return `Except.error`.
-/

/-- Result record built by `processPageReference` (one per processed
reference).  `faultRate` models
`Math.round((faultCount / currentStep) * 100 * 100) / 100` over exact
rationals. -/
structure StepResult where
  stepIndex : Nat
  pageNumber : Int
  isHit : Bool
  replacedFrameIndex : Option Nat
  replacedPage : Option Int
  frameState : List (Option Int)
  faultCount : Nat
  faultRate : ℚ
deriving DecidableEq

/-- The state of a `FIFOAlgorithm` instance: frame memory, the FIFO queue
of frame indices, statistics and the full step history. -/
structure FIFOAlgorithm where
  frameCount : Int
  pageReferences : List Int
  frames : List (Option Int)
  fifoQueue : List Nat
  currentStep : Nat
  faultCount : Nat
  stepHistory : List StepResult
deriving DecidableEq

/-- Constructor of `FIFOAlgorithm`: validates the arguments
(`frameCount` must be a positive integer, `pageReferences` a non-empty
list of non-negative integers) and initialises all frames empty, the
FIFO queue empty, and the counters at zero. -/
def FIFOAlgorithm.new (frameCount : Int) (pageReferences : List Int) :
    Except String FIFOAlgorithm :=
  if frameCount ≤ 0 then
    .error "Frame count must be a positive integer"
  else if pageReferences.length = 0 then
    .error "Page references must be a non-empty array"
  else if pageReferences.any (fun p => p < 0) then
    .error "Page reference must be a non-negative integer"
  else
    .ok { frameCount := frameCount
          pageReferences := pageReferences
          frames := List.replicate frameCount.toNat none
          fifoQueue := []
          currentStep := 0
          faultCount := 0
          stepHistory := [] }

/-- `isPageHit`: the referenced page is a hit iff it currently occupies
some frame (`this.frames.includes(pageNumber)`). -/
def FIFOAlgorithm.isPageHit (frames : List (Option Int)) (pageNumber : Int) : Bool :=
  frames.contains (some pageNumber)

/-- `findEmptyFrameIndex`: index of the first empty frame
(`this.frames.findIndex(frame => frame === null)`); the JavaScript `-1`
sentinel is modelled as `none`. -/
def FIFOAlgorithm.findEmptyFrameIndex : List (Option Int) → Option Nat
  | [] => none
  | f :: rest =>
    if f = none then some 0
    else (FIFOAlgorithm.findEmptyFrameIndex rest).map (fun i => i + 1)

/-- `calculateFaultRate`: percentage of faults among the references
processed so far, rounded to two decimals (0 when nothing processed). -/
def FIFOAlgorithm.calculateFaultRate (faultCount currentStep : Nat) : ℚ :=
  if currentStep = 0 then 0
  else (((faultCount : ℚ) / (currentStep : ℚ) * 100 * 100 + 1 / 2).floor : ℚ) / 100

/-- `processPageReference(stepIndex)`: advance the simulation by one
reference.  On a miss the page goes into the first empty frame, or (all
frames occupied) evicts the head of the FIFO queue.  The case of a miss
with all frames occupied but an empty `fifoQueue` is unreachable from a
valid construction (see `reachable_engineInv`); the JavaScript `shift()` would
return `undefined` there and corrupt the state, which we model as an
error. -/
def FIFOAlgorithm.processPageReference (s : FIFOAlgorithm) (stepIndex : Nat) :
    Except String (FIFOAlgorithm × StepResult) :=
  if stepIndex < s.pageReferences.length then
    let pageNumber := s.pageReferences.getD stepIndex 0
    if FIFOAlgorithm.isPageHit s.frames pageNumber then
      let r : StepResult :=
        { stepIndex := stepIndex
          pageNumber := pageNumber
          isHit := true
          replacedFrameIndex := none
          replacedPage := none
          frameState := s.frames
          faultCount := s.faultCount
          faultRate := FIFOAlgorithm.calculateFaultRate s.faultCount (stepIndex + 1) }
      .ok ({ s with currentStep := stepIndex + 1
                    stepHistory := s.stepHistory ++ [r] }, r)
    else
      match FIFOAlgorithm.findEmptyFrameIndex s.frames with
      | some e =>
        let frames' := s.frames.set e (some pageNumber)
        let r : StepResult :=
          { stepIndex := stepIndex
            pageNumber := pageNumber
            isHit := false
            replacedFrameIndex := none
            replacedPage := none
            frameState := frames'
            faultCount := s.faultCount + 1
            faultRate := FIFOAlgorithm.calculateFaultRate (s.faultCount + 1) (stepIndex + 1) }
        .ok ({ s with frames := frames'
                      fifoQueue := s.fifoQueue ++ [e]
                      faultCount := s.faultCount + 1
                      currentStep := stepIndex + 1
                      stepHistory := s.stepHistory ++ [r] }, r)
      | none =>
        match s.fifoQueue with
        | [] => .error "shift on empty fifoQueue"
        | h :: t =>
          let frames' := s.frames.set h (some pageNumber)
          let r : StepResult :=
            { stepIndex := stepIndex
              pageNumber := pageNumber
              isHit := false
              replacedFrameIndex := some h
              replacedPage := s.frames.getD h none
              frameState := frames'
              faultCount := s.faultCount + 1
              faultRate := FIFOAlgorithm.calculateFaultRate (s.faultCount + 1) (stepIndex + 1) }
          .ok ({ s with frames := frames'
                        fifoQueue := t ++ [h]
                        faultCount := s.faultCount + 1
                        currentStep := stepIndex + 1
                        stepHistory := s.stepHistory ++ [r] }, r)
  else .error "Invalid step index"

/-- The queue-rebuilding loop of `restoreToStep`: scan the frames in
increasing index order and collect every occupied index. -/
def FIFOAlgorithm.rebuildQueue : List (Option Int) → List Nat
  | [] => []
  | none :: rest => (FIFOAlgorithm.rebuildQueue rest).map (fun i => i + 1)
  | some _ :: rest => 0 :: (FIFOAlgorithm.rebuildQueue rest).map (fun i => i + 1)

/-- `restoreToStep(stepIndex)`: rewind to a previously recorded step.
Frames and fault count come from the stored record; the FIFO queue is
rebuilt from frame occupancy; the history is kept. -/
def FIFOAlgorithm.restoreToStep (s : FIFOAlgorithm) (stepIndex : Nat) :
    Except String FIFOAlgorithm :=
  if h : stepIndex < s.stepHistory.length then
    let r := s.stepHistory.get ⟨stepIndex, h⟩
    .ok { s with frames := r.frameState
                 faultCount := r.faultCount
                 currentStep := r.stepIndex + 1
                 fifoQueue := FIFOAlgorithm.rebuildQueue r.frameState }
  else .error "Invalid step index for restoration"

/-- `getOldestFrameIndex`: head of the FIFO queue, `-1` when empty. -/
def FIFOAlgorithm.getOldestFrameIndex (s : FIFOAlgorithm) : Int :=
  match s.fifoQueue with
  | [] => -1
  | h :: _ => (h : Int)

/-- Sequential driver: call `processPageReference` once for each index in
the list, in order, threading the state (the return values are
discarded). -/
def runSteps (s : FIFOAlgorithm) : List Nat → Except String FIFOAlgorithm
  | [] => .ok s
  | i :: rest =>
    match s.processPageReference i with
    | .ok (s', _) => runSteps s' rest
    | .error e => .error e

/-- State of the `AnimationEngine` scheduler from `animation.js` (the
canvas renderer and the timer handle carry no algorithmic state and are
omitted). -/
structure AnimationEngine where
  algorithm : FIFOAlgorithm
  isPlaying : Bool
  currentStep : Nat
  totalSteps : Nat
  speed : Nat
  stepHistory : List StepResult
deriving DecidableEq

/-- `AnimationEngine` constructor: wraps an algorithm instance, paused,
at step 0, with `totalSteps = pageReferences.length` and default speed
1000 ms. -/
def AnimationEngine.new (algorithm : FIFOAlgorithm) : AnimationEngine :=
  { algorithm := algorithm
    isPlaying := false
    currentStep := 0
    totalSteps := algorithm.pageReferences.length
    speed := 1000
    stepHistory := [] }

/-- `pause()`: returns `false` when not playing, otherwise clears the
timer (not modelled) and stops playing. -/
def AnimationEngine.pause (a : AnimationEngine) : AnimationEngine × Bool :=
  if a.isPlaying then ({ a with isPlaying := false }, true)
  else (a, false)

/-- `stepForward()`: null when past the end; otherwise processes the
current reference, advances the local counter and logs the result.  An
error thrown by the engine is caught: the scheduler pauses and returns
null. -/
def AnimationEngine.stepForward (a : AnimationEngine) :
    AnimationEngine × Option StepResult :=
  if a.totalSteps ≤ a.currentStep then (a, none)
  else
    match a.algorithm.processPageReference a.currentStep with
    | .ok (s', r) =>
      ({ a with algorithm := s'
                currentStep := a.currentStep + 1
                stepHistory := a.stepHistory ++ [r] }, some r)
    | .error _ => ((a.pause).1, none)

/-! ### Basic lemmas about the frame-scanning helpers -/

theorem isPageHit_iff_getD (fl : List (Option Int)) (p : Int) :
    FIFOAlgorithm.isPageHit fl p = true ↔
      ∃ j, j < fl.length ∧ fl.getD j none = some p := by
  constructor
  · intro h
    have hmem : some p ∈ fl := by
      simpa [FIFOAlgorithm.isPageHit] using h
    obtain ⟨n, hn, hget⟩ := List.mem_iff_getElem.mp hmem
    exact ⟨n, hn, by rw [List.getD_eq_getElem fl none hn, hget]⟩
  · rintro ⟨j, hj, hget⟩
    have hmem : some p ∈ fl := by
      rw [List.getD_eq_getElem fl none hj] at hget
      exact hget ▸ List.getElem_mem hj
    simpa [FIFOAlgorithm.isPageHit] using hmem

theorem findEmptyFrameIndex_some (fl : List (Option Int)) (e : Nat)
    (h : FIFOAlgorithm.findEmptyFrameIndex fl = some e) :
    e < fl.length ∧ fl.getD e none = none ∧ ∀ j < e, fl.getD j none ≠ none := by
  induction fl generalizing e with
  | nil => simp [FIFOAlgorithm.findEmptyFrameIndex] at h
  | cons f rest ih =>
    by_cases hf : f = none
    · simp [FIFOAlgorithm.findEmptyFrameIndex, hf] at h
      subst h
      simp [hf]
    · simp [FIFOAlgorithm.findEmptyFrameIndex, hf] at h
      obtain ⟨e', he', rfl⟩ := h
      obtain ⟨h1, h2, h3⟩ := ih e' he'
      refine ⟨by simpa using h1, by simpa using h2, ?_⟩
      intro j hj
      cases j with
      | zero => simpa using hf
      | succ j' =>
        simpa using h3 j' (by omega)

theorem findEmptyFrameIndex_none (fl : List (Option Int))
    (h : FIFOAlgorithm.findEmptyFrameIndex fl = none) :
    ∀ j < fl.length, fl.getD j none ≠ none := by
  induction fl with
  | nil => simp
  | cons f rest ih =>
    by_cases hf : f = none
    · simp [FIFOAlgorithm.findEmptyFrameIndex, hf] at h
    · simp [FIFOAlgorithm.findEmptyFrameIndex, hf] at h
      intro j hj
      cases j with
      | zero => simpa using hf
      | succ j' => simpa using ih h j' (by simpa using hj)

theorem rebuildQueue_mem (fl : List (Option Int)) (i : Nat) :
    i ∈ FIFOAlgorithm.rebuildQueue fl ↔ fl.getD i none ≠ none := by
  induction fl generalizing i with
  | nil => simp [FIFOAlgorithm.rebuildQueue]
  | cons f rest ih =>
    cases f with
    | none =>
      cases i with
      | zero => simp [FIFOAlgorithm.rebuildQueue]
      | succ i' => simp [FIFOAlgorithm.rebuildQueue, ih]
    | some v =>
      cases i with
      | zero => simp [FIFOAlgorithm.rebuildQueue]
      | succ i' => simp [FIFOAlgorithm.rebuildQueue, ih]

theorem rebuildQueue_nodup (fl : List (Option Int)) :
    (FIFOAlgorithm.rebuildQueue fl).Nodup := by
  induction fl with
  | nil => simp [FIFOAlgorithm.rebuildQueue]
  | cons f rest ih =>
    have hmap : ((FIFOAlgorithm.rebuildQueue rest).map (fun i => i + 1)).Nodup :=
      ih.map (fun a b hab => by omega)
    cases f with
    | none => simpa [FIFOAlgorithm.rebuildQueue] using hmap
    | some v =>
      refine List.Nodup.cons ?_ hmap
      simp

theorem rebuildQueue_length (fl : List (Option Int)) :
    (FIFOAlgorithm.rebuildQueue fl).length = fl.countP (fun o => o != none) := by
  induction fl with
  | nil => simp [FIFOAlgorithm.rebuildQueue]
  | cons f rest ih =>
    cases f with
    | none => simp [FIFOAlgorithm.rebuildQueue, List.countP_cons, ih]
    | some v => simp [FIFOAlgorithm.rebuildQueue, List.countP_cons, ih]

/-! ### Characterisation of the branches of `processPageReference` -/

theorem process_eq_hit (s : FIFOAlgorithm) (i : Nat)
    (hlen : i < s.pageReferences.length)
    (hhit : FIFOAlgorithm.isPageHit s.frames (s.pageReferences.getD i 0) = true) :
    s.processPageReference i =
      .ok ({ s with currentStep := i + 1
                    stepHistory := s.stepHistory ++
                      [⟨i, s.pageReferences.getD i 0, true, none, none, s.frames,
                        s.faultCount, FIFOAlgorithm.calculateFaultRate s.faultCount (i + 1)⟩] },
           ⟨i, s.pageReferences.getD i 0, true, none, none, s.frames,
            s.faultCount, FIFOAlgorithm.calculateFaultRate s.faultCount (i + 1)⟩) := by
  rw [List.getD_eq_getElem s.pageReferences 0 hlen] at hhit
  simp [FIFOAlgorithm.processPageReference, hlen, hhit]

theorem process_eq_fill (s : FIFOAlgorithm) (i : Nat) (e : Nat)
    (hlen : i < s.pageReferences.length)
    (hmiss : FIFOAlgorithm.isPageHit s.frames (s.pageReferences.getD i 0) = false)
    (hfe : FIFOAlgorithm.findEmptyFrameIndex s.frames = some e) :
    s.processPageReference i =
      .ok ({ s with frames := s.frames.set e (some (s.pageReferences.getD i 0))
                    fifoQueue := s.fifoQueue ++ [e]
                    faultCount := s.faultCount + 1
                    currentStep := i + 1
                    stepHistory := s.stepHistory ++
                      [⟨i, s.pageReferences.getD i 0, false, none, none,
                        s.frames.set e (some (s.pageReferences.getD i 0)),
                        s.faultCount + 1,
                        FIFOAlgorithm.calculateFaultRate (s.faultCount + 1) (i + 1)⟩] },
           ⟨i, s.pageReferences.getD i 0, false, none, none,
            s.frames.set e (some (s.pageReferences.getD i 0)),
            s.faultCount + 1,
            FIFOAlgorithm.calculateFaultRate (s.faultCount + 1) (i + 1)⟩) := by
  rw [List.getD_eq_getElem s.pageReferences 0 hlen] at hmiss
  simp [FIFOAlgorithm.processPageReference, hlen, hmiss, hfe]

theorem process_eq_evict (s : FIFOAlgorithm) (i : Nat) (h : Nat) (t : List Nat)
    (hlen : i < s.pageReferences.length)
    (hmiss : FIFOAlgorithm.isPageHit s.frames (s.pageReferences.getD i 0) = false)
    (hfe : FIFOAlgorithm.findEmptyFrameIndex s.frames = none)
    (hq : s.fifoQueue = h :: t) :
    s.processPageReference i =
      .ok ({ s with frames := s.frames.set h (some (s.pageReferences.getD i 0))
                    fifoQueue := t ++ [h]
                    faultCount := s.faultCount + 1
                    currentStep := i + 1
                    stepHistory := s.stepHistory ++
                      [⟨i, s.pageReferences.getD i 0, false, some h, s.frames.getD h none,
                        s.frames.set h (some (s.pageReferences.getD i 0)),
                        s.faultCount + 1,
                        FIFOAlgorithm.calculateFaultRate (s.faultCount + 1) (i + 1)⟩] },
           ⟨i, s.pageReferences.getD i 0, false, some h, s.frames.getD h none,
            s.frames.set h (some (s.pageReferences.getD i 0)),
            s.faultCount + 1,
            FIFOAlgorithm.calculateFaultRate (s.faultCount + 1) (i + 1)⟩) := by
  rw [List.getD_eq_getElem s.pageReferences 0 hlen] at hmiss
  simp [FIFOAlgorithm.processPageReference, hlen, hmiss, hfe, hq]

theorem process_eq_oob (s : FIFOAlgorithm) (i : Nat)
    (hlen : ¬ i < s.pageReferences.length) :
    s.processPageReference i = .error "Invalid step index" := by
  simp [FIFOAlgorithm.processPageReference, hlen]

/-- Every successful `processPageReference` call leaves the immutable
fields alone, sets `currentStep` to `stepIndex + 1`, appends exactly the
returned record to the history, and snapshots the resulting frames and
fault count in that record. -/
theorem process_ok_fields (s : FIFOAlgorithm) (i : Nat) (s' : FIFOAlgorithm) (r : StepResult)
    (h : s.processPageReference i = .ok (s', r)) :
    s'.pageReferences = s.pageReferences ∧ s'.frameCount = s.frameCount ∧
    s'.currentStep = i + 1 ∧ s'.stepHistory = s.stepHistory ++ [r] ∧
    r.frameState = s'.frames ∧ r.faultCount = s'.faultCount ∧ r.stepIndex = i ∧
    s'.frames.length = s.frames.length ∧
    s'.faultCount = s.faultCount + (if r.isHit then 0 else 1) := by
  by_cases hlen : i < s.pageReferences.length
  · by_cases hhit : FIFOAlgorithm.isPageHit s.frames (s.pageReferences.getD i 0) = true
    · rw [process_eq_hit s i hlen hhit] at h
      simp only [Except.ok.injEq, Prod.mk.injEq] at h
      obtain ⟨rfl, rfl⟩ := h
      simp
    · rw [Bool.not_eq_true] at hhit
      cases hfe : FIFOAlgorithm.findEmptyFrameIndex s.frames with
      | some e =>
        rw [process_eq_fill s i e hlen hhit hfe] at h
        simp only [Except.ok.injEq, Prod.mk.injEq] at h
        obtain ⟨rfl, rfl⟩ := h
        simp
      | none =>
        cases hq : s.fifoQueue with
        | nil =>
          rw [List.getD_eq_getElem s.pageReferences 0 hlen] at hhit
          rw [FIFOAlgorithm.processPageReference] at h
          simp [hlen, hhit, hfe, hq] at h
        | cons hd tl =>
          rw [process_eq_evict s i hd tl hlen hhit hfe hq] at h
          simp only [Except.ok.injEq, Prod.mk.injEq] at h
          obtain ⟨rfl, rfl⟩ := h
          simp
  · rw [process_eq_oob s i hlen] at h
    simp at h

theorem getD_set_self {α : Type} (l : List α) (i : Nat) (a d : α) (h : i < l.length) :
    (l.set i a).getD i d = a := by
  simp [List.getD_eq_getElem?_getD, List.getElem?_set_self h]

theorem getD_set_ne {α : Type} (l : List α) {i j : Nat} (hij : i ≠ j) (a d : α) :
    (l.set i a).getD j d = l.getD j d := by
  simp [List.getD_eq_getElem?_getD, List.getElem?_set_ne hij]

theorem getD_ne_lt {α : Type} (l : List α) (i : Nat) (d : α) (h : l.getD i d ≠ d) :
    i < l.length := by
  by_contra hge
  exact h (List.getD_eq_default l d (by omega))

/-! ### Lemmas about the sequential driver `runSteps` -/

theorem runSteps_append (s : FIFOAlgorithm) (l₁ l₂ : List Nat) (s'' : FIFOAlgorithm)
    (h : runSteps s (l₁ ++ l₂) = .ok s'') :
    ∃ s', runSteps s l₁ = .ok s' ∧ runSteps s' l₂ = .ok s'' := by
  induction l₁ generalizing s with
  | nil => exact ⟨s, rfl, h⟩
  | cons i rest ih =>
    rw [List.cons_append, runSteps] at h
    rw [runSteps]
    cases hp : s.processPageReference i with
    | ok p =>
      rw [hp] at h
      exact ih p.1 h
    | error e => rw [hp] at h; simp at h

/-- A successful run preserves the immutable fields, only appends to the
history (one record per processed index), and adds one fault per
appended miss record. -/
theorem runSteps_ok_fields (l : List Nat) (s s' : FIFOAlgorithm)
    (h : runSteps s l = .ok s') :
    s'.pageReferences = s.pageReferences ∧ s'.frameCount = s.frameCount ∧
    ∃ t, s'.stepHistory = s.stepHistory ++ t ∧ t.length = l.length ∧
      s'.faultCount = s.faultCount + t.countP (fun r => !r.isHit) := by
  induction l generalizing s with
  | nil =>
    rw [runSteps] at h
    simp at h
    subst h
    exact ⟨rfl, rfl, [], by simp, rfl, by simp⟩
  | cons i rest ih =>
    rw [runSteps] at h
    cases hp : s.processPageReference i with
    | ok p =>
      rw [hp] at h
      obtain ⟨h1, h2, h3, h4, h5, h6, h7, h8, h9⟩ :=
        process_ok_fields s i p.1 p.2 (by rw [hp])
      obtain ⟨g1, g2, t, g3, g4, g5⟩ := ih p.1 h
      refine ⟨g1.trans h1, g2.trans h2, p.2 :: t, ?_, by simp [g4], ?_⟩
      · rw [g3, h4]; simp
      · rw [g5, h9, List.countP_cons]
        cases hh : p.2.isHit
        · simp [hh]
          omega
        · simp [hh]
    | error e => rw [hp] at h; simp at h

/-! ### The reachable-state invariant -/

/-- Structural invariant of the engine: a positive frame count, frames of
that length, and a duplicate-free FIFO queue containing exactly the
occupied frame indices; every recorded snapshot has the right length. -/
def EngineInv (s : FIFOAlgorithm) : Prop :=
  0 < s.frameCount ∧ s.frames.length = s.frameCount.toNat ∧ s.fifoQueue.Nodup ∧
  (∀ i ∈ s.fifoQueue, s.frames.getD i none ≠ none) ∧
  (∀ i < s.frames.length, s.frames.getD i none ≠ none → i ∈ s.fifoQueue) ∧
  (∀ r ∈ s.stepHistory, r.frameState.length = s.frameCount.toNat)

instance engineInvDecidable (s : FIFOAlgorithm) : Decidable (EngineInv s) := by
  unfold EngineInv
  infer_instance

theorem engineInv_mem_iff (s : FIFOAlgorithm) (hs : EngineInv s) (i : Nat) :
    i ∈ s.fifoQueue ↔ s.frames.getD i none ≠ none := by
  obtain ⟨-, -, -, h4, h5, -⟩ := hs
  constructor
  · exact h4 i
  · intro hocc
    exact h5 i (getD_ne_lt _ _ _ hocc) hocc

/-- States reachable from a valid construction by any sequence of
successful `processPageReference` and `restoreToStep` calls (a failing
call throws before mutating anything, so it does not change the state). -/
inductive Reachable : FIFOAlgorithm → Prop
  | init (fc : Int) (refs : List Int) (s : FIFOAlgorithm) :
      FIFOAlgorithm.new fc refs = .ok s → Reachable s
  | fwd (s : FIFOAlgorithm) (i : Nat) (s' : FIFOAlgorithm) (r : StepResult) :
      Reachable s → s.processPageReference i = .ok (s', r) → Reachable s'
  | rewind (s : FIFOAlgorithm) (i : Nat) (s' : FIFOAlgorithm) :
      Reachable s → s.restoreToStep i = .ok s' → Reachable s'

theorem engineInv_new (fc : Int) (refs : List Int) (s : FIFOAlgorithm)
    (h : FIFOAlgorithm.new fc refs = .ok s) : EngineInv s := by
  rw [FIFOAlgorithm.new] at h
  split at h
  · simp at h
  · split at h
    · simp at h
    · split at h
      · simp at h
      · rename_i hfc _ _
        simp only [Except.ok.injEq] at h
        subst h
        refine ⟨by show (0 : Int) < fc; omega, by simp, by simp, by simp, ?_, by simp⟩
        intro i hi hocc
        rw [List.getD_eq_getElem _ _ hi] at hocc
        simp at hocc

theorem engineInv_process (s : FIFOAlgorithm) (i : Nat) (s' : FIFOAlgorithm) (r : StepResult)
    (hs : EngineInv s) (h : s.processPageReference i = .ok (s', r)) : EngineInv s' := by
  obtain ⟨h1, h2, h3, h4, h5, h6⟩ := hs
  by_cases hlen : i < s.pageReferences.length
  · by_cases hhit : FIFOAlgorithm.isPageHit s.frames (s.pageReferences.getD i 0) = true
    · rw [process_eq_hit s i hlen hhit] at h
      simp only [Except.ok.injEq, Prod.mk.injEq] at h
      obtain ⟨rfl, rfl⟩ := h
      refine ⟨h1, h2, h3, h4, h5, ?_⟩
      intro r hr
      simp at hr
      rcases hr with hr | hr
      · exact h6 r hr
      · subst hr; simpa using h2
    · rw [Bool.not_eq_true] at hhit
      cases hfe : FIFOAlgorithm.findEmptyFrameIndex s.frames with
      | some e =>
        obtain ⟨he1, he2, -⟩ := findEmptyFrameIndex_some s.frames e hfe
        rw [process_eq_fill s i e hlen hhit hfe] at h
        simp only [Except.ok.injEq, Prod.mk.injEq] at h
        obtain ⟨rfl, rfl⟩ := h
        have hnotmem : e ∉ s.fifoQueue := by
          intro hmem
          exact h4 e hmem he2
        refine ⟨h1, by simpa using h2, ?_, ?_, ?_, ?_⟩
        · rw [List.nodup_append]
          refine ⟨h3, by simp, ?_⟩
          intro a ha hae
          simp at hae
          subst hae
          exact hnotmem ha
        · intro j hj
          simp at hj
          rcases hj with hj | hj
          · rw [getD_set_ne s.frames (by intro hej; apply h4 j hj; rw [← hej]; exact he2) _ none]
            exact h4 j hj
          · subst hj
            rw [getD_set_self s.frames j _ none he1]
            simp
        · intro j hj hocc
          simp only [List.length_set] at hj
          by_cases hje : j = e
          · simp [hje]
          · rw [getD_set_ne s.frames (by omega) _ none] at hocc
            simp
            exact Or.inl (h5 j hj hocc)
        · intro r hr
          simp at hr
          rcases hr with hr | hr
          · exact h6 r hr
          · subst hr; simpa using h2
      | none =>
        cases hq : s.fifoQueue with
        | nil =>
          rw [List.getD_eq_getElem s.pageReferences 0 hlen] at hhit
          rw [FIFOAlgorithm.processPageReference] at h
          simp [hlen, hhit, hfe, hq] at h
        | cons hd tl =>
          rw [process_eq_evict s i hd tl hlen hhit hfe hq] at h
          simp only [Except.ok.injEq, Prod.mk.injEq] at h
          obtain ⟨rfl, rfl⟩ := h
          have hdmem : hd ∈ s.fifoQueue := by rw [hq]; simp
          have hdocc : s.frames.getD hd none ≠ none := h4 hd hdmem
          have hdlt : hd < s.frames.length := getD_ne_lt _ _ _ hdocc
          have hnodup' : tl.Nodup ∧ hd ∉ tl := by
            rw [hq] at h3
            exact ⟨h3.of_cons, (List.nodup_cons.mp h3).1⟩
          refine ⟨h1, by simpa using h2, ?_, ?_, ?_, ?_⟩
          · rw [List.nodup_append]
            refine ⟨hnodup'.1, by simp, ?_⟩
            intro a ha hae
            simp at hae
            subst hae
            exact hnodup'.2 ha
          · intro j hj
            simp at hj
            rcases hj with hj | hj
            · have hjq : j ∈ s.fifoQueue := by rw [hq]; simp [hj]
              by_cases hjd : j = hd
              · subst hjd
                rw [getD_set_self s.frames j _ none hdlt]
                simp
              · rw [getD_set_ne s.frames (by omega) _ none]
                exact h4 j hjq
            · subst hj
              rw [getD_set_self s.frames j _ none hdlt]
              simp
          · intro j hj hocc
            simp only [List.length_set] at hj
            by_cases hjd : j = hd
            · simp [hjd]
            · rw [getD_set_ne s.frames (by omega) _ none] at hocc
              have := h5 j hj hocc
              rw [hq] at this
              simp at this
              rcases this with this | this
              · omega
              · simp [this]
          · intro r hr
            simp at hr
            rcases hr with hr | hr
            · exact h6 r hr
            · subst hr
              simpa using h2
  · rw [process_eq_oob s i hlen] at h
    simp at h

theorem engineInv_restore (s : FIFOAlgorithm) (i : Nat) (s' : FIFOAlgorithm)
    (hs : EngineInv s) (h : s.restoreToStep i = .ok s') : EngineInv s' := by
  obtain ⟨h1, h2, -, -, -, h6⟩ := hs
  rw [FIFOAlgorithm.restoreToStep] at h
  split at h
  · rename_i hi
    simp only [Except.ok.injEq] at h
    subst h
    have hrec : (s.stepHistory.get ⟨i, hi⟩).frameState.length = s.frameCount.toNat :=
      h6 _ (List.get_mem s.stepHistory i hi)
    refine ⟨h1, hrec, rebuildQueue_nodup _, ?_, ?_, h6⟩
    · intro j hj
      exact (rebuildQueue_mem _ j).mp hj
    · intro j hj hocc
      exact (rebuildQueue_mem _ j).mpr hocc
  · simp at h

theorem reachable_engineInv (s : FIFOAlgorithm) (h : Reachable s) : EngineInv s := by
  induction h with
  | init fc refs s hnew => exact engineInv_new fc refs s hnew
  | fwd s i s' r _ hp ih => exact engineInv_process s i s' r ih hp
  | rewind s i s' _ hr ih => exact engineInv_restore s i s' ih hr

/-! ### Replay depends only on the core state

`processPageReference` reads only `frames`, `fifoQueue`, `faultCount`,
`pageReferences` and `frameCount`; `currentStep` is overwritten and
`stepHistory` is only appended to.  Two states agreeing on that core
therefore stay in lock step under processing. -/

/-- The part of the engine state that the processing logic reads. -/
def CoreEq (s₁ s₂ : FIFOAlgorithm) : Prop :=
  s₁.frames = s₂.frames ∧ s₁.fifoQueue = s₂.fifoQueue ∧
  s₁.faultCount = s₂.faultCount ∧ s₁.pageReferences = s₂.pageReferences ∧
  s₁.frameCount = s₂.frameCount

theorem process_coreEq (s₁ s₂ : FIFOAlgorithm) (i : Nat) (t₁ : FIFOAlgorithm) (r : StepResult)
    (hc : CoreEq s₁ s₂) (h : s₁.processPageReference i = .ok (t₁, r)) :
    ∃ t₂, s₂.processPageReference i = .ok (t₂, r) ∧ CoreEq t₁ t₂ := by
  obtain ⟨hf, hq, hfc, hpr, hcnt⟩ := hc
  by_cases hlen : i < s₁.pageReferences.length
  · have hlen₂ : i < s₂.pageReferences.length := by rw [← hpr]; exact hlen
    have hpage : s₂.pageReferences.getD i 0 = s₁.pageReferences.getD i 0 := by rw [hpr]
    by_cases hhit : FIFOAlgorithm.isPageHit s₁.frames (s₁.pageReferences.getD i 0) = true
    · have hhit₂ : FIFOAlgorithm.isPageHit s₂.frames (s₂.pageReferences.getD i 0) = true := by
        rw [← hf, hpage]; exact hhit
      rw [process_eq_hit s₁ i hlen hhit] at h
      simp only [Except.ok.injEq, Prod.mk.injEq] at h
      obtain ⟨rfl, rfl⟩ := h
      have he₂ := process_eq_hit s₂ i hlen₂ hhit₂
      rw [← hpr, ← hf, ← hfc] at he₂
      refine ⟨_, he₂, ?_⟩
      simp [CoreEq, hf, hq, hfc, hpr, hcnt]
    · rw [Bool.not_eq_true] at hhit
      have hhit₂ : FIFOAlgorithm.isPageHit s₂.frames (s₂.pageReferences.getD i 0) = false := by
        rw [← hf, hpage]; exact hhit
      cases hfe : FIFOAlgorithm.findEmptyFrameIndex s₁.frames with
      | some e =>
        have hfe₂ : FIFOAlgorithm.findEmptyFrameIndex s₂.frames = some e := by
          rw [← hf]; exact hfe
        rw [process_eq_fill s₁ i e hlen hhit hfe] at h
        simp only [Except.ok.injEq, Prod.mk.injEq] at h
        obtain ⟨rfl, rfl⟩ := h
        have he₂ := process_eq_fill s₂ i e hlen₂ hhit₂ hfe₂
        rw [← hpr, ← hf, ← hfc, ← hq] at he₂
        refine ⟨_, he₂, ?_⟩
        simp [CoreEq, hf, hq, hfc, hpr, hcnt]
      | none =>
        have hfe₂ : FIFOAlgorithm.findEmptyFrameIndex s₂.frames = none := by
          rw [← hf]; exact hfe
        cases hqq : s₁.fifoQueue with
        | nil =>
          rw [List.getD_eq_getElem s₁.pageReferences 0 hlen] at hhit
          rw [FIFOAlgorithm.processPageReference] at h
          simp [hlen, hhit, hfe, hqq] at h
        | cons hd tl =>
          have hqq₂ : s₂.fifoQueue = hd :: tl := by rw [← hq]; exact hqq
          rw [process_eq_evict s₁ i hd tl hlen hhit hfe hqq] at h
          simp only [Except.ok.injEq, Prod.mk.injEq] at h
          obtain ⟨rfl, rfl⟩ := h
          have he₂ := process_eq_evict s₂ i hd tl hlen₂ hhit₂ hfe₂ hqq₂
          rw [← hpr, ← hf, ← hfc] at he₂
          refine ⟨_, he₂, ?_⟩
          simp [CoreEq, hf, hq, hfc, hpr, hcnt]
  · rw [process_eq_oob s₁ i hlen] at h
    simp at h

theorem runSteps_coreEq (l : List Nat) (s₁ s₂ t₁ : FIFOAlgorithm)
    (hc : CoreEq s₁ s₂) (h : runSteps s₁ l = .ok t₁) :
    ∃ t₂, runSteps s₂ l = .ok t₂ ∧ CoreEq t₁ t₂ := by
  induction l generalizing s₁ s₂ with
  | nil =>
    rw [runSteps] at h
    simp at h
    subst h
    exact ⟨s₂, rfl, hc⟩
  | cons i rest ih =>
    rw [runSteps] at h
    cases hp : s₁.processPageReference i with
    | ok p =>
      rw [hp] at h
      obtain ⟨t₂, hp₂, hc'⟩ := process_coreEq s₁ s₂ i p.1 p.2 hc (by rw [hp])
      obtain ⟨u₂, hu₂, hcu⟩ := ih p.1 t₂ hc' h
      refine ⟨u₂, ?_, hcu⟩
      rw [runSteps, hp₂]
      exact hu₂
    | error e => rw [hp] at h; simp at h

/-! ### Constructor, restore and fresh-run facts -/

theorem new_ok_fields (fc : Int) (refs : List Int) (s : FIFOAlgorithm)
    (h : FIFOAlgorithm.new fc refs = .ok s) :
    s.frameCount = fc ∧ s.pageReferences = refs ∧
    s.frames = List.replicate fc.toNat none ∧ s.fifoQueue = [] ∧
    s.currentStep = 0 ∧ s.faultCount = 0 ∧ s.stepHistory = [] ∧
    0 < fc ∧ refs ≠ [] ∧ ∀ p ∈ refs, 0 ≤ p := by
  rw [FIFOAlgorithm.new] at h
  split at h
  · simp at h
  · split at h
    · simp at h
    · split at h
      · simp at h
      · rename_i hfc hne hng
        simp only [Except.ok.injEq] at h
        subst h
        refine ⟨rfl, rfl, rfl, rfl, rfl, rfl, rfl, by omega, ?_, ?_⟩
        · intro hnil
          exact hne (by rw [hnil]; rfl)
        · intro p hp
          by_contra hneg
          exact hng (List.any_eq_true.mpr ⟨p, hp, by simp; omega⟩)

theorem new_error_iff (fc : Int) (refs : List Int) :
    (∃ msg, FIFOAlgorithm.new fc refs = .error msg) ↔
      (fc ≤ 0 ∨ refs = [] ∨ ∃ p ∈ refs, p < 0) := by
  rw [FIFOAlgorithm.new]
  by_cases h1 : fc ≤ 0
  · simp [h1]
  by_cases h2 : refs.length = 0
  · simp [h1, h2, List.length_eq_zero.mp h2]
  by_cases h3 : refs.any (fun p => p < 0) = true
  · have hex : ∃ p ∈ refs, p < 0 := by simpa using List.any_eq_true.mp h3
    simp [h1, h2, h3, hex]
  · have hne : refs ≠ [] := fun hnil => h2 (by rw [hnil]; rfl)
    have hno : ¬ ∃ p ∈ refs, p < 0 := by
      rintro ⟨p, hp, hneg⟩
      exact h3 (List.any_eq_true.mpr ⟨p, hp, by simpa using hneg⟩)
    simp [h1, h2, h3, hne, hno]

theorem restore_eq (s : FIFOAlgorithm) (k : Nat) (hk : k < s.stepHistory.length) :
    s.restoreToStep k =
      .ok { s with frames := (s.stepHistory.get ⟨k, hk⟩).frameState
                   faultCount := (s.stepHistory.get ⟨k, hk⟩).faultCount
                   currentStep := (s.stepHistory.get ⟨k, hk⟩).stepIndex + 1
                   fifoQueue := FIFOAlgorithm.rebuildQueue
                     (s.stepHistory.get ⟨k, hk⟩).frameState } := by
  rw [FIFOAlgorithm.restoreToStep]
  simp [hk]

theorem restore_eq_oob (s : FIFOAlgorithm) (k : Nat) (hk : ¬ k < s.stepHistory.length) :
    s.restoreToStep k = .error "Invalid step index for restoration" := by
  rw [FIFOAlgorithm.restoreToStep]
  simp [hk]

/-- Running indices `0 .. k` from a freshly-constructed state leaves a
history of length `k + 1` whose entry at position `k` snapshots the
resulting frames and fault count, carries `stepIndex = k`, and sets
`currentStep = k + 1`. -/
theorem fresh_run_last (s0 sk : FIFOAlgorithm) (k : Nat)
    (hhist0 : s0.stepHistory = [])
    (hk : runSteps s0 (List.range (k + 1)) = .ok sk) :
    sk.stepHistory.length = k + 1 ∧
    ∃ rk, sk.stepHistory[k]? = some rk ∧ rk.frameState = sk.frames ∧
      rk.faultCount = sk.faultCount ∧ rk.stepIndex = k ∧ sk.currentStep = k + 1 := by
  rw [List.range_succ] at hk
  obtain ⟨sm, h1, h2⟩ := runSteps_append s0 (List.range k) [k] sk hk
  obtain ⟨-, -, t, ht, htlen, -⟩ := runSteps_ok_fields _ s0 sm h1
  have hmlen : sm.stepHistory.length = k := by
    rw [ht, hhist0]
    simpa using htlen
  cases hp : sm.processPageReference k with
  | ok p =>
    have h3 : runSteps p.1 [] = .ok sk := by
      rw [runSteps, hp] at h2
      exact h2
    rw [runSteps] at h3
    simp only [Except.ok.injEq] at h3
    obtain ⟨g1, g2, g3, g4, g5, g6, g7, g8, g9⟩ :=
      process_ok_fields sm k p.1 p.2 (by rw [hp])
    subst h3
    constructor
    · rw [g4, List.length_append, hmlen]
      rfl
    · refine ⟨p.2, ?_, g5, g6, g7, g3⟩
      rw [g4, ← hmlen]
      exact List.getElem?_concat_length sm.stepHistory p.2
  | error e => rw [runSteps, hp] at h2; simp at h2

/-- When all frames are occupied, a state satisfying the invariant has a
non-empty FIFO queue (so `shift()` always finds a victim). -/
theorem engineInv_queue_ne_nil (s : FIFOAlgorithm) (hinv : EngineInv s)
    (hfull : FIFOAlgorithm.findEmptyFrameIndex s.frames = none) :
    s.fifoQueue ≠ [] := by
  obtain ⟨h1, h2, h3, h4, h5, h6⟩ := hinv
  have h0lt : 0 < s.frames.length := by rw [h2]; omega
  have hocc := findEmptyFrameIndex_none s.frames hfull 0 h0lt
  have hmem := h5 0 h0lt hocc
  intro hq
  rw [hq] at hmem
  simp at hmem

/-- C8 (confirmed): the constructor fails with an error exactly when
`frameCount` is not positive, or `pageReferences` is empty or contains a
negative value; on success all frames are empty, the FIFO queue is
empty, `currentStep = 0`, `faultCount = 0` and the history is empty.
(Non-integer inputs are outside the integer embedding; for integer
inputs "`frameCount` is not a positive integer" is `frameCount ≤ 0`.) -/
theorem C8_constructor_spec (fc : Int) (refs : List Int) :
    ((∃ msg, FIFOAlgorithm.new fc refs = .error msg) ↔
      (fc ≤ 0 ∨ refs = [] ∨ ∃ p ∈ refs, p < 0)) ∧
    (∀ s, FIFOAlgorithm.new fc refs = .ok s →
      (∀ f ∈ s.frames, f = none) ∧ s.frames.length = fc.toNat ∧
      s.fifoQueue = [] ∧ s.currentStep = 0 ∧ s.faultCount = 0 ∧
      s.stepHistory = []) := by
  constructor
  · exact new_error_iff fc refs
  · intro s hs
    obtain ⟨-, -, h3, h4, h5, h6, h7, -, -, -⟩ := new_ok_fields fc refs s hs
    refine ⟨?_, by rw [h3]; simp, h4, h5, h6, h7⟩
    intro f hf
    rw [h3] at hf
    exact List.eq_of_mem_replicate hf

/-- C8 witness: `frameCount = 0` is rejected. -/
theorem C8_constructor_spec_witness :
    ∃ msg, FIFOAlgorithm.new 0 [1] = .error msg :=
  (C8_constructor_spec 0 [1]).1.mpr (Or.inl (by decide))

/-- C6 (confirmed): a processed reference is reported as a hit iff the
referenced page occupies some frame before the step; on a hit no frame
is mutated and `faultCount` is unchanged. -/
theorem C6_hit_iff (s : FIFOAlgorithm) (i : Nat) (s' : FIFOAlgorithm) (r : StepResult)
    (hok : s.processPageReference i = .ok (s', r)) :
    (r.isHit = true ↔ ∃ j, j < s.frames.length ∧
      s.frames.getD j none = some (s.pageReferences.getD i 0)) ∧
    (r.isHit = true → s'.frames = s.frames ∧ s'.faultCount = s.faultCount) := by
  by_cases hlen : i < s.pageReferences.length
  · by_cases hhit : FIFOAlgorithm.isPageHit s.frames (s.pageReferences.getD i 0) = true
    · rw [process_eq_hit s i hlen hhit] at hok
      simp only [Except.ok.injEq, Prod.mk.injEq] at hok
      obtain ⟨rfl, rfl⟩ := hok
      exact ⟨by simpa using (isPageHit_iff_getD s.frames _).mp hhit,
             fun _ => ⟨rfl, rfl⟩⟩
    · rw [Bool.not_eq_true] at hhit
      have hno : ¬ ∃ j, j < s.frames.length ∧
          s.frames.getD j none = some (s.pageReferences.getD i 0) := by
        intro hex
        rw [(isPageHit_iff_getD s.frames _).mpr hex] at hhit
        simp at hhit
      cases hfe : FIFOAlgorithm.findEmptyFrameIndex s.frames with
      | some e =>
        rw [process_eq_fill s i e hlen hhit hfe] at hok
        simp only [Except.ok.injEq, Prod.mk.injEq] at hok
        obtain ⟨rfl, rfl⟩ := hok
        exact ⟨⟨fun hft => by simp at hft, fun hex => (hno hex).elim⟩,
               fun hft => by simp at hft⟩
      | none =>
        cases hq : s.fifoQueue with
        | nil =>
          rw [List.getD_eq_getElem s.pageReferences 0 hlen] at hhit
          rw [FIFOAlgorithm.processPageReference] at hok
          simp [hlen, hhit, hfe, hq] at hok
        | cons hd tl =>
          rw [process_eq_evict s i hd tl hlen hhit hfe hq] at hok
          simp only [Except.ok.injEq, Prod.mk.injEq] at hok
          obtain ⟨rfl, rfl⟩ := hok
          exact ⟨⟨fun hft => by simp at hft, fun hex => (hno hex).elim⟩,
                 fun hft => by simp at hft⟩
  · rw [process_eq_oob s i hlen] at hok
    simp at hok

/-- Concrete engine state used to witness the hit behaviour: one frame
holding page 5, about to re-reference page 5. -/
def c6S : FIFOAlgorithm := ⟨1, [5], [some 5], [0], 1, 1, []⟩

/-- The step record produced by the witness hit. -/
def c6R : StepResult :=
  ⟨0, c6S.pageReferences.getD 0 0, true, none, none, c6S.frames, c6S.faultCount,
   FIFOAlgorithm.calculateFaultRate c6S.faultCount (0 + 1)⟩

/-- The engine state after the witness hit. -/
def c6S' : FIFOAlgorithm :=
  { c6S with currentStep := 0 + 1, stepHistory := c6S.stepHistory ++ [c6R] }

/-- C6 witness: a concrete hit on a resident page. -/
theorem C6_hit_iff_witness :
    (c6R.isHit = true ↔ ∃ j, j < c6S.frames.length ∧
      c6S.frames.getD j none = some (c6S.pageReferences.getD 0 0)) ∧
    (c6R.isHit = true → c6S'.frames = c6S.frames ∧ c6S'.faultCount = c6S.faultCount) :=
  C6_hit_iff c6S 0 c6S' c6R (process_eq_hit c6S 0 (by decide) (by decide))

/-- C7 (confirmed): a miss with an empty frame available increments the
fault count by one, places the page in the lowest-index empty frame,
appends that frame index to the queue tail, and records no eviction. -/
theorem C7_miss_fill (s : FIFOAlgorithm) (i e : Nat)
    (hlen : i < s.pageReferences.length)
    (hmiss : FIFOAlgorithm.isPageHit s.frames (s.pageReferences.getD i 0) = false)
    (hempty : FIFOAlgorithm.findEmptyFrameIndex s.frames = some e) :
    ∃ s' r, s.processPageReference i = .ok (s', r) ∧
      s'.faultCount = s.faultCount + 1 ∧
      s.frames.getD e none = none ∧ (∀ j < e, s.frames.getD j none ≠ none) ∧
      s'.frames = s.frames.set e (some (s.pageReferences.getD i 0)) ∧
      s'.fifoQueue = s.fifoQueue ++ [e] ∧
      r.replacedFrameIndex = none ∧ r.replacedPage = none := by
  obtain ⟨he1, he2, he3⟩ := findEmptyFrameIndex_some s.frames e hempty
  exact ⟨_, _, process_eq_fill s i e hlen hmiss hempty,
    by simp, he2, he3, by simp, by simp, rfl, rfl⟩

/-- C7 witness: a concrete miss into the single empty frame. -/
theorem C7_miss_fill_witness :
    ∃ s' r, (⟨1, [5], [none], [], 0, 0, []⟩ : FIFOAlgorithm).processPageReference 0 =
        .ok (s', r) ∧
      s'.faultCount = (⟨1, [5], [none], [], 0, 0, []⟩ : FIFOAlgorithm).faultCount + 1 ∧
      ([none] : List (Option Int)).getD 0 none = none ∧
      (∀ j < 0, ([none] : List (Option Int)).getD j none ≠ none) ∧
      s'.frames = ([none] : List (Option Int)).set 0 (some (([5] : List Int).getD 0 0)) ∧
      s'.fifoQueue = ([] : List Nat) ++ [0] ∧
      r.replacedFrameIndex = none ∧ r.replacedPage = none :=
  C7_miss_fill ⟨1, [5], [none], [], 0, 0, []⟩ 0 0 (by decide) (by decide) (by decide)

/-- C2 (confirmed): a miss with no empty frame pops the head of the FIFO
queue, records that frame's previous content as `replacedPage` and its
index as `replacedFrameIndex`, overwrites the frame with the referenced
page, and re-appends the same index at the tail. -/
theorem C2_miss_evict (s : FIFOAlgorithm) (i : Nat)
    (hinv : EngineInv s)
    (hlen : i < s.pageReferences.length)
    (hmiss : FIFOAlgorithm.isPageHit s.frames (s.pageReferences.getD i 0) = false)
    (hfull : FIFOAlgorithm.findEmptyFrameIndex s.frames = none) :
    ∃ h t s' r, s.fifoQueue = h :: t ∧ s.processPageReference i = .ok (s', r) ∧
      r.replacedFrameIndex = some h ∧ r.replacedPage = s.frames.getD h none ∧
      s'.frames = s.frames.set h (some (s.pageReferences.getD i 0)) ∧
      s'.fifoQueue = t ++ [h] := by
  cases hq : s.fifoQueue with
  | nil => exact absurd hq (engineInv_queue_ne_nil s hinv hfull)
  | cons hd tl =>
    exact ⟨hd, tl, _, _, rfl, process_eq_evict s i hd tl hlen hmiss hfull hq,
      rfl, rfl, by simp, by simp⟩

/-- C2 witness: a concrete eviction in a one-frame engine. -/
theorem C2_miss_evict_witness :
    ∃ h t s' r, (⟨1, [5, 7], [some 5], [0], 1, 1, []⟩ : FIFOAlgorithm).fifoQueue = h :: t ∧
      (⟨1, [5, 7], [some 5], [0], 1, 1, []⟩ : FIFOAlgorithm).processPageReference 1 =
        .ok (s', r) ∧
      r.replacedFrameIndex = some h ∧
      r.replacedPage = ([some 5] : List (Option Int)).getD h none ∧
      s'.frames = ([some 5] : List (Option Int)).set h (some (([5, 7] : List Int).getD 1 0)) ∧
      s'.fifoQueue = t ++ [h] :=
  C2_miss_evict ⟨1, [5, 7], [some 5], [0], 1, 1, []⟩ 1
    (by decide) (by decide) (by decide) (by decide)

/-- C5 (confirmed): in every reachable engine state the FIFO queue has no
duplicate indices, every element is a frame index below `frameCount`,
its length equals the number of occupied frames, and whenever a
processing step evicts, the evicted frame is the head of the queue. -/
theorem C5_fifo_invariant (s : FIFOAlgorithm) (h : Reachable s) :
    s.fifoQueue.Nodup ∧
    (∀ i ∈ s.fifoQueue, (i : Int) < s.frameCount) ∧
    s.fifoQueue.length = s.frames.countP (fun o => o != none) ∧
    (∀ i s' r, s.processPageReference i = .ok (s', r) →
      r.replacedFrameIndex ≠ none → r.replacedFrameIndex = s.fifoQueue.head?) := by
  have hinv := reachable_engineInv s h
  obtain ⟨h1, h2, h3, h4, h5, h6⟩ := hinv
  refine ⟨h3, ?_, ?_, ?_⟩
  · intro i hi
    have hocc := h4 i hi
    have hlt := getD_ne_lt _ _ _ hocc
    rw [h2] at hlt
    omega
  · have hperm : s.fifoQueue.Perm (FIFOAlgorithm.rebuildQueue s.frames) := by
      rw [List.perm_ext_iff_of_nodup h3 (rebuildQueue_nodup _)]
      intro a
      rw [rebuildQueue_mem]
      exact engineInv_mem_iff s ⟨h1, h2, h3, h4, h5, h6⟩ a
    rw [hperm.length_eq, rebuildQueue_length]
  · intro i s' r hp hrep
    by_cases hlen : i < s.pageReferences.length
    · by_cases hhit : FIFOAlgorithm.isPageHit s.frames (s.pageReferences.getD i 0) = true
      · rw [process_eq_hit s i hlen hhit] at hp
        simp only [Except.ok.injEq, Prod.mk.injEq] at hp
        obtain ⟨rfl, rfl⟩ := hp
        simp at hrep
      · rw [Bool.not_eq_true] at hhit
        cases hfe : FIFOAlgorithm.findEmptyFrameIndex s.frames with
        | some e =>
          rw [process_eq_fill s i e hlen hhit hfe] at hp
          simp only [Except.ok.injEq, Prod.mk.injEq] at hp
          obtain ⟨rfl, rfl⟩ := hp
          simp at hrep
        | none =>
          cases hq : s.fifoQueue with
          | nil =>
            rw [List.getD_eq_getElem s.pageReferences 0 hlen] at hhit
            rw [FIFOAlgorithm.processPageReference] at hp
            simp [hlen, hhit, hfe, hq] at hp
          | cons hd tl =>
            rw [process_eq_evict s i hd tl hlen hhit hfe hq] at hp
            simp only [Except.ok.injEq, Prod.mk.injEq] at hp
            obtain ⟨rfl, rfl⟩ := hp
            simp [hq]
    · rw [process_eq_oob s i hlen] at hp
      simp at hp

/-- C5 witness: the invariant at a freshly constructed two-frame engine. -/
theorem C5_fifo_invariant_witness :
    (⟨2, [1, 2], [none, none], [], 0, 0, []⟩ : FIFOAlgorithm).fifoQueue.Nodup ∧
    (∀ i ∈ (⟨2, [1, 2], [none, none], [], 0, 0, []⟩ : FIFOAlgorithm).fifoQueue,
      (i : Int) < (⟨2, [1, 2], [none, none], [], 0, 0, []⟩ : FIFOAlgorithm).frameCount) ∧
    (⟨2, [1, 2], [none, none], [], 0, 0, []⟩ : FIFOAlgorithm).fifoQueue.length =
      (⟨2, [1, 2], [none, none], [], 0, 0, []⟩ : FIFOAlgorithm).frames.countP
        (fun o => o != none) ∧
    (∀ i s' r, (⟨2, [1, 2], [none, none], [], 0, 0, []⟩ : FIFOAlgorithm).processPageReference i
        = .ok (s', r) →
      r.replacedFrameIndex ≠ none →
      r.replacedFrameIndex =
        (⟨2, [1, 2], [none, none], [], 0, 0, []⟩ : FIFOAlgorithm).fifoQueue.head?) :=
  C5_fifo_invariant ⟨2, [1, 2], [none, none], [], 0, 0, []⟩
    (Reachable.init 2 [1, 2] ⟨2, [1, 2], [none, none], [], 0, 0, []⟩ (by rfl))

/-- C9 (confirmed): the scheduler's `stepForward` is a no-op returning
null once `currentStep` reaches `totalSteps`; otherwise it processes the
current reference, advances its own counter and logs the result; if the
engine call fails it pauses, returns null, and leaves `currentStep`
unchanged. -/
theorem C9_stepForward_spec (a : AnimationEngine) :
    (a.totalSteps ≤ a.currentStep → a.stepForward = (a, none)) ∧
    (∀ s' r, a.currentStep < a.totalSteps →
      a.algorithm.processPageReference a.currentStep = .ok (s', r) →
      a.stepForward = ({ a with algorithm := s'
                                currentStep := a.currentStep + 1
                                stepHistory := a.stepHistory ++ [r] }, some r)) ∧
    (∀ msg, a.currentStep < a.totalSteps →
      a.algorithm.processPageReference a.currentStep = .error msg →
      a.stepForward = ((a.pause).1, none) ∧
      (a.stepForward).1.currentStep = a.currentStep ∧
      (a.stepForward).1.isPlaying = false) := by
  refine ⟨?_, ?_, ?_⟩
  · intro hge
    rw [AnimationEngine.stepForward]
    simp [hge]
  · intro s' r hlt hok
    rw [AnimationEngine.stepForward]
    rw [if_neg (by omega), hok]
  · intro msg hlt herr
    have hsf : a.stepForward = ((a.pause).1, none) := by
      rw [AnimationEngine.stepForward]
      rw [if_neg (by omega), herr]
    refine ⟨hsf, ?_, ?_⟩
    · rw [hsf, AnimationEngine.pause]
      by_cases hp : a.isPlaying
      · simp [hp]
      · simp [hp]
    · rw [hsf, AnimationEngine.pause]
      by_cases hp : a.isPlaying
      · simp [hp]
      · simp [hp]

/-- A scheduler already at the end of a zero-reference window. -/
def c9A : AnimationEngine := ⟨⟨1, [5], [none], [], 0, 0, []⟩, false, 0, 0, 1000, []⟩

/-- C9 witness: stepping forward past the end is a no-op returning null. -/
theorem C9_stepForward_spec_witness : c9A.stepForward = (c9A, none) :=
  (C9_stepForward_spec c9A).1 (by decide)

/-- One frame, references `[0, 1]`: process both, rewind to step 0, then
re-process step 1.  The resulting history holds three records, two of
them for `stepIndex = 1`. -/
def replayState : Option FIFOAlgorithm := do
  let s1 ← (FIFOAlgorithm.new 1 [0, 1]).toOption
  let s2 ← (runSteps s1 [0, 1]).toOption
  let s3 ← (s2.restoreToStep 0).toOption
  (runSteps s3 [1]).toOption

/-- C10 (confirmed): the engine never checks `currentStep` when
processing: any in-range index succeeds from any invariant-satisfying
state, sets `currentStep = stepIndex + 1` and appends exactly one
record; so after a rewind plus replay the history holds several records
with the same `stepIndex` and grows beyond `pageReferences.length`. -/
theorem C10_engine_nonsequential :
    (∀ (s : FIFOAlgorithm) (i : Nat), EngineInv s → i < s.pageReferences.length →
      ∃ s' r, s.processPageReference i = .ok (s', r) ∧ s'.currentStep = i + 1 ∧
        s'.stepHistory = s.stepHistory ++ [r]) ∧
    replayState.map (fun s => s.stepHistory.length) = some 3 ∧
    replayState.map (fun s => s.pageReferences.length) = some 2 ∧
    replayState.map (fun s => s.stepHistory.map StepResult.stepIndex) = some [0, 1, 1] := by
  refine ⟨?_, by decide, by decide, by decide⟩
  intro s i hinv hlen
  by_cases hhit : FIFOAlgorithm.isPageHit s.frames (s.pageReferences.getD i 0) = true
  · exact ⟨_, _, process_eq_hit s i hlen hhit, by simp, by simp⟩
  · rw [Bool.not_eq_true] at hhit
    cases hfe : FIFOAlgorithm.findEmptyFrameIndex s.frames with
    | some e => exact ⟨_, _, process_eq_fill s i e hlen hhit hfe, by simp, by simp⟩
    | none =>
      cases hq : s.fifoQueue with
      | nil => exact absurd hq (engineInv_queue_ne_nil s hinv hfe)
      | cons hd tl =>
        exact ⟨_, _, process_eq_evict s i hd tl hlen hhit hfe hq, by simp, by simp⟩

/-- C10 witness: processing index 0 from a fresh one-frame engine. -/
theorem C10_engine_nonsequential_witness :
    ∃ s' r, (⟨1, [5], [none], [], 0, 0, []⟩ : FIFOAlgorithm).processPageReference 0 =
        .ok (s', r) ∧ s'.currentStep = 0 + 1 ∧
      s'.stepHistory = (⟨1, [5], [none], [], 0, 0, []⟩ : FIFOAlgorithm).stepHistory ++ [r] :=
  C10_engine_nonsequential.1 ⟨1, [5], [none], [], 0, 0, []⟩ 0 (by decide) (by decide)

/-- Rewinding `replayState` to history position 2: that record was the
re-processing of step 1, so its `stepIndex` is 1, not 2. -/
def c3Restored : Option FIFOAlgorithm := do
  let s ← replayState
  (s.restoreToStep 2).toOption

/-- C3 counterexample: in a reachable state whose history holds three
records (indices 0, 1, 1), `restoreToStep(2)` sets `currentStep` to 2
(`stepHistory[2].stepIndex + 1`), not to `2 + 1` as the claim states. -/
theorem C3_restore_counterexample :
    replayState.map (fun s => s.stepHistory.length) = some 3 ∧
    c3Restored.map FIFOAlgorithm.currentStep = some 2 ∧
    ¬ c3Restored.map FIFOAlgorithm.currentStep = some (2 + 1) := by decide

/-- C3 (corrected): `restoreToStep(k)` restores `frames` and
`faultCount` from `stepHistory[k]`, sets
`currentStep = stepHistory[k].stepIndex + 1` (which is `k + 1` exactly
when that record's `stepIndex` is `k`, as in an uninterrupted forward
run), rebuilds `fifoOrder` by an index-order scan of the restored
frames, and never truncates `stepHistory`. -/
theorem C3_restore_spec (s : FIFOAlgorithm) (k : Nat) (hk : k < s.stepHistory.length) :
    ∃ s', s.restoreToStep k = .ok s' ∧
      s'.frames = (s.stepHistory.get ⟨k, hk⟩).frameState ∧
      s'.faultCount = (s.stepHistory.get ⟨k, hk⟩).faultCount ∧
      s'.currentStep = (s.stepHistory.get ⟨k, hk⟩).stepIndex + 1 ∧
      s'.fifoQueue = FIFOAlgorithm.rebuildQueue (s.stepHistory.get ⟨k, hk⟩).frameState ∧
      (∀ i, i ∈ s'.fifoQueue ↔ s'.frames.getD i none ≠ none) ∧
      s'.stepHistory = s.stepHistory := by
  refine ⟨_, restore_eq s k hk, rfl, rfl, rfl, rfl, ?_, rfl⟩
  intro i
  exact rebuildQueue_mem _ i

/-- A one-step history record for the C3 witness. -/
def c3r : StepResult :=
  ⟨0, 5, false, none, none, [some 5], 1, FIFOAlgorithm.calculateFaultRate 1 1⟩

/-- A state holding one processed step, for the C3 witness. -/
def c3s : FIFOAlgorithm := ⟨1, [5], [some 5], [0], 1, 1, [c3r]⟩

/-- C3 witness: restoring a one-record history at index 0. -/
theorem C3_restore_spec_witness :
    ∃ s', c3s.restoreToStep 0 = .ok s' ∧
      s'.frames = c3r.frameState ∧
      s'.faultCount = c3r.faultCount ∧
      s'.currentStep = c3r.stepIndex + 1 ∧
      s'.fifoQueue = FIFOAlgorithm.rebuildQueue c3r.frameState ∧
      (∀ i, i ∈ s'.fifoQueue ↔ s'.frames.getD i none ≠ none) ∧
      s'.stepHistory = c3s.stepHistory :=
  C3_restore_spec c3s 0 (by decide)

/-- An in-order run over `0 .. m-1` leaves `currentStep = m`. -/
theorem run_range_currentStep (s0 s : FIFOAlgorithm) (m : Nat)
    (h0 : s0.currentStep = 0) (hrun : runSteps s0 (List.range m) = .ok s) :
    s.currentStep = m := by
  cases m with
  | zero =>
    rw [List.range_zero, runSteps] at hrun
    simp only [Except.ok.injEq] at hrun
    rw [← hrun]
    exact h0
  | succ k =>
    rw [List.range_succ] at hrun
    obtain ⟨sm, h1, h2⟩ := runSteps_append s0 (List.range k) [k] s hrun
    cases hp : sm.processPageReference k with
    | ok p =>
      have h3 : runSteps p.1 [] = .ok s := by
        rw [runSteps, hp] at h2
        exact h2
      rw [runSteps] at h3
      simp only [Except.ok.injEq] at h3
      obtain ⟨-, -, g3, -⟩ := process_ok_fields sm k p.1 p.2 (by rw [hp])
      rw [← h3]
      exact g3
    | error e => rw [runSteps, hp] at h2; simp at h2

/-- The uninterrupted run of the counterexample workload: two frames,
references `[1, 0, 2, 3, 0]`, all five steps processed in order. -/
def fullRunState : Option FIFOAlgorithm := do
  let s1 ← (FIFOAlgorithm.new 2 [1, 0, 2, 3, 0]).toOption
  (runSteps s1 (List.range 5)).toOption

/-- The same workload rewound to step 2 and replayed: the rebuilt FIFO
queue is in index order rather than insertion order, so the replay
evicts a different frame and step 4 becomes a hit. -/
def divergedState : Option FIFOAlgorithm := do
  let s ← fullRunState
  let s3 ← (s.restoreToStep 2).toOption
  (runSteps s3 [3, 4]).toOption

/-- C4 counterexample: after rewind plus replay, the engine's
`faultCount` is 4 while `stepHistory[0..currentStep)` (the first five
records, all misses of the original run) counts 5 misses. -/
theorem C4_fault_invariant_counterexample :
    divergedState.map FIFOAlgorithm.faultCount = some 4 ∧
    divergedState.map
      (fun s => (s.stepHistory.take s.currentStep).countP (fun r => !r.isHit)) =
      some 5 := by decide

/-- C4 (corrected): the fault-count invariant holds for every state
reached from a valid construction by processing steps `0 .. m-1` in
order with no rewind; after `restoreToStep` and re-processing, the
window `stepHistory[0..currentStep)` still holds the original run's
records while `faultCount` follows the replayed trajectory, and the two
can differ. -/
theorem C4_fault_invariant (fc : Int) (refs : List Int) (s0 s : FIFOAlgorithm) (m : Nat)
    (h0 : FIFOAlgorithm.new fc refs = .ok s0)
    (hrun : runSteps s0 (List.range m) = .ok s) :
    s.faultCount = (s.stepHistory.take s.currentStep).countP (fun r => !r.isHit) := by
  obtain ⟨-, -, -, -, h5, h6, h7, -, -, -⟩ := new_ok_fields fc refs s0 h0
  obtain ⟨-, -, t, ht, htlen, hfc⟩ := runSteps_ok_fields _ s0 s hrun
  have hhist : s.stepHistory = t := by rw [ht, h7]; simp
  have hlen : s.stepHistory.length = m := by rw [hhist, htlen, List.length_range]
  have hcs : s.currentStep = m := run_range_currentStep s0 s m h5 hrun
  rw [hcs, ← hlen, List.take_length, hhist, hfc, h6]
  simp

/-- A freshly constructed one-frame engine, for the C4 witness. -/
def c4s0 : FIFOAlgorithm := ⟨1, [0], [none], [], 0, 0, []⟩

/-- C4 witness: the invariant at the freshly constructed state. -/
theorem C4_fault_invariant_witness :
    c4s0.faultCount = (c4s0.stepHistory.take c4s0.currentStep).countP (fun r => !r.isHit) :=
  C4_fault_invariant 1 [0] c4s0 c4s0 0 (by rfl) (by rfl)

/-- C1 counterexample: two frames, references `[1, 0, 2, 3, 0]`.  The
uninterrupted run ends with frames `[0, 3]` and 5 faults; rewinding to
step 2 and re-processing steps 3 and 4 ends with frames `[3, 0]` and 4
faults — neither the frames nor the fault count round-trip. -/
theorem C1_round_trip_counterexample :
    fullRunState.map FIFOAlgorithm.frames = some [some 0, some 3] ∧
    fullRunState.map FIFOAlgorithm.faultCount = some 5 ∧
    divergedState.map FIFOAlgorithm.frames = some [some 3, some 0] ∧
    divergedState.map FIFOAlgorithm.faultCount = some 4 := by decide

/-- C1 (corrected): the round trip does reproduce `frames` and
`faultCount` under the extra hypothesis that the forward run's
`fifoOrder` at step `k` coincides with the index-order scan of the
occupied frames (the order `restoreToStep` reconstructs) — for example
whenever no eviction has yet disturbed the insertion order. -/
theorem C1_round_trip_amended (fc : Int) (refs : List Int) (k : Nat)
    (s0 sk send sr sr' : FIFOAlgorithm)
    (h0 : FIFOAlgorithm.new fc refs = .ok s0)
    (hk : runSteps s0 (List.range (k + 1)) = .ok sk)
    (hrest : runSteps sk ((List.range refs.length).drop (k + 1)) = .ok send)
    (hq : sk.fifoQueue = FIFOAlgorithm.rebuildQueue sk.frames)
    (hr : send.restoreToStep k = .ok sr)
    (hreplay : runSteps sr ((List.range refs.length).drop (k + 1)) = .ok sr') :
    sr'.frames = send.frames ∧ sr'.faultCount = send.faultCount := by
  obtain ⟨-, -, -, -, -, -, h7, -, -, -⟩ := new_ok_fields fc refs s0 h0
  obtain ⟨hlenk, rk, hgetk, hrkf, hrkc, hrki, hcs⟩ := fresh_run_last s0 sk k h7 hk
  obtain ⟨hpr, hfcnt, t, ht, htlen, -⟩ := runSteps_ok_fields _ sk send hrest
  have hklt : k < send.stepHistory.length := by
    rw [ht, List.length_append]
    omega
  have hsendk : send.stepHistory.get ⟨k, hklt⟩ = rk := by
    have h1 : send.stepHistory[k]? = some rk := by
      rw [ht, List.getElem?_append_left (by omega)]
      exact hgetk
    have h2 : send.stepHistory[k]? = some (send.stepHistory.get ⟨k, hklt⟩) := by
      rw [List.getElem?_eq_getElem hklt]
      rfl
    rw [h1] at h2
    exact (Option.some.injEq _ _).mp h2.symm
  rw [restore_eq send k hklt] at hr
  simp only [Except.ok.injEq] at hr
  have hcore : CoreEq sr sk := by
    rw [← hr]
    refine ⟨?_, ?_, ?_, ?_, ?_⟩
    · show (send.stepHistory.get ⟨k, hklt⟩).frameState = sk.frames
      rw [hsendk, hrkf]
    · show FIFOAlgorithm.rebuildQueue (send.stepHistory.get ⟨k, hklt⟩).frameState =
        sk.fifoQueue
      rw [hsendk, hrkf, ← hq]
    · show (send.stepHistory.get ⟨k, hklt⟩).faultCount = sk.faultCount
      rw [hsendk, hrkc]
    · show send.pageReferences = sk.pageReferences
      exact hpr
    · show send.frameCount = sk.frameCount
      exact hfcnt
  obtain ⟨t₂, hrun₂, hc'⟩ :=
    runSteps_coreEq ((List.range refs.length).drop (k + 1)) sr sk sr' hcore hreplay
  rw [hrest] at hrun₂
  simp only [Except.ok.injEq] at hrun₂
  subst hrun₂
  exact ⟨hc'.1, hc'.2.2.1⟩

/-- C1 witness data: one frame, references `[0, 1]`, rewound at `k = 0`.
Step 0 fills the single frame with page 0. -/
def c1r0 : StepResult :=
  ⟨0, 0, false, none, none, [some 0], 1, FIFOAlgorithm.calculateFaultRate 1 1⟩

/-- Step 1 evicts frame 0 (page 0) for page 1. -/
def c1r1 : StepResult :=
  ⟨1, 1, false, some 0, some 0, [some 1], 2, FIFOAlgorithm.calculateFaultRate 2 2⟩

/-- The fresh state of the C1 witness. -/
def c1s0 : FIFOAlgorithm := ⟨1, [0, 1], [none], [], 0, 0, []⟩

/-- After step 0 of the C1 witness. -/
def c1sk : FIFOAlgorithm := ⟨1, [0, 1], [some 0], [0], 1, 1, [c1r0]⟩

/-- After the uninterrupted run of the C1 witness. -/
def c1send : FIFOAlgorithm := ⟨1, [0, 1], [some 1], [0], 2, 2, [c1r0, c1r1]⟩

/-- After `restoreToStep 0` of the C1 witness. -/
def c1sr : FIFOAlgorithm := ⟨1, [0, 1], [some 0], [0], 1, 1, [c1r0, c1r1]⟩

/-- After replaying step 1 of the C1 witness. -/
def c1sr2 : FIFOAlgorithm := ⟨1, [0, 1], [some 1], [0], 2, 2, [c1r0, c1r1, c1r1]⟩

/-- C1 witness: with one frame the queue order always equals the index
scan, and the round trip reproduces frames and fault count. -/
theorem C1_round_trip_amended_witness :
    c1sr2.frames = c1send.frames ∧ c1sr2.faultCount = c1send.faultCount :=
  C1_round_trip_amended 1 [0, 1] 0 c1s0 c1sk c1send c1sr c1sr2
    (by rfl) (by rfl) (by rfl) (by rfl) (by rfl) (by rfl)
